import Mathlib

/-!
Verification of the StreamlitProcurement pipeline: text extraction glue,
chunk splitting, per-chunk model calls, the session review store, and
the Excel template fill routine.  Texts are modelled as `List Char`
(Python `str`), spreadsheet cell values as `Option (List Char)`
(openpyxl's `cell.value`, `none` for an empty cell).
-/

/-- Whitespace test used by `strip` (Python `str.strip`). -/
def isWs (c : Char) : Bool :=
  c == ' ' || c == '\n' || c == '\t' || c == '\r'

/-- Python `str.strip()`: drop leading and trailing whitespace. -/
def strip (s : List Char) : List Char :=
  ((s.dropWhile isWs).reverse.dropWhile isWs).reverse

/-- Python `str.split(sep)` for a one-character separator: splitting the
empty string yields `[[]]` (one empty field), and in general one more
field than there are separator occurrences. -/
def splitSep (sep : Char) : List Char → List (List Char)
  | [] => [[]]
  | c :: cs =>
    match splitSep sep cs with
    | [] => [[]]
    | l :: ls => if c = sep then [] :: l :: ls else (c :: l) :: ls

/-- `edited_text.split("\n")` (line 106 of the source). -/
def splitNl (s : List Char) : List (List Char) :=
  splitSep '\n' s

/-- Python `"\n".join(blocks)` (line 100 of the source). -/
def joinNl : List (List Char) → List Char
  | [] => []
  | [b] => b
  | b :: b' :: bs => b ++ '\n' :: joinNl (b' :: bs)

/-- `file.name.split(".")[-1]` (line 48 of the source). -/
def fileExtension (name : List Char) : List Char :=
  (splitSep '.' name).getLastD []

theorem splitSep_cons_eq (sep c : Char) (cs l : List Char) (ls : List (List Char))
    (hcs : splitSep sep cs = l :: ls) :
    splitSep sep (c :: cs) =
      if c = sep then [] :: l :: ls else (c :: l) :: ls := by
  simp only [splitSep, hcs]

theorem splitSep_ne_nil (sep : Char) : ∀ s : List Char, splitSep sep s ≠ []
  | [] => by simp [splitSep]
  | c :: cs => by
    cases hcs : splitSep sep cs with
    | nil => exact absurd hcs (splitSep_ne_nil sep cs)
    | cons l ls =>
      rw [splitSep_cons_eq sep c cs l ls hcs]
      rcases eq_or_ne c sep with hc | hc <;> simp [hc]

theorem splitSep_length_pos (sep : Char) (s : List Char) :
    1 ≤ (splitSep sep s).length := by
  cases h : splitSep sep s with
  | nil => exact absurd h (splitSep_ne_nil sep s)
  | cons l ls => simp

theorem splitSep_append (sep : Char) :
    ∀ xs ys : List Char,
      splitSep sep (xs ++ sep :: ys) = splitSep sep xs ++ splitSep sep ys
  | [], ys => by
    cases hys : splitSep sep ys with
    | nil => exact absurd hys (splitSep_ne_nil sep ys)
    | cons l ls =>
      rw [List.nil_append, splitSep_cons_eq sep sep ys l ls hys]
      simp [splitSep]
  | x :: xs, ys => by
    have ih := splitSep_append sep xs ys
    cases hxs : splitSep sep xs with
    | nil => exact absurd hxs (splitSep_ne_nil sep xs)
    | cons l ls =>
      have hmid : splitSep sep (xs ++ sep :: ys) = l :: (ls ++ splitSep sep ys) := by
        rw [ih, hxs]
        rfl
      rw [List.cons_append, splitSep_cons_eq sep x (xs ++ sep :: ys) _ _ hmid,
        splitSep_cons_eq sep x xs l ls hxs]
      rcases eq_or_ne x sep with hx | hx <;> simp [hx]

theorem splitSep_no_sep (sep : Char) :
    ∀ s : List Char, sep ∉ s → splitSep sep s = [s]
  | [], _ => by simp [splitSep]
  | c :: cs, h => by
    have hcs : sep ∉ cs := fun hm => h (List.mem_cons_of_mem c hm)
    have hc : c ≠ sep := fun he => h (he ▸ List.mem_cons_self c cs)
    rw [splitSep_cons_eq sep c cs cs [] (splitSep_no_sep sep cs hcs)]
    simp [hc]

theorem splitNl_joinNl :
    ∀ bs : List (List Char), bs ≠ [] →
      splitNl (joinNl bs) = (bs.map splitNl).flatten
  | [], h => absurd rfl h
  | [b], _ => by simp [joinNl, splitNl]
  | b :: b' :: bs, _ => by
    have ih := splitNl_joinNl (b' :: bs) (by simp)
    simp only [joinNl, splitNl] at ih ⊢
    rw [splitSep_append '\n' b (joinNl (b' :: bs)), ih]
    simp [splitNl]

theorem flatten_map_singleton :
    ∀ l : List (List Char), (l.map (fun b => [b])).flatten = l
  | [] => rfl
  | b :: bs => by simp [flatten_map_singleton bs]

theorem splitNl_joinNl_of_no_newline (bs : List (List Char)) (h1 : bs ≠ [])
    (h2 : ∀ b ∈ bs, ('\n' : Char) ∉ b) : splitNl (joinNl bs) = bs := by
  rw [splitNl_joinNl bs h1]
  have hmap : bs.map splitNl = bs.map (fun b => [b]) := by
    apply List.map_congr_left
    intro b hb
    exact splitSep_no_sep '\n' b (h2 b hb)
  rw [hmap, flatten_map_singleton]

/-- Modelled from the spec: the chunk splitter
(`RecursiveCharacterTextSplitter(chunk_size=5000, chunk_overlap=0)` at line
55 of the source is third-party library code, absent from this repository).
Index of the last whitespace character of a window, used to prefer a
natural boundary over a hard character cut. -/
def lastWsIndex (l : List Char) : Option Nat :=
  ((List.range l.length).filter (fun i => isWs (l.getD i ' '))).getLast?

/-- Modelled from the spec: length of the next raw chunk taken from the
front of the remaining text — the whole text when it fits in the 5000
cap, otherwise a cut at the last whitespace of the first 5000 characters
when one exists, else a hard cut at 5000. -/
def chunkBreak (s : List Char) : Nat :=
  if s.length ≤ 5000 then s.length
  else
    match lastWsIndex (s.take 5000) with
    | some i => i + 1
    | none => 5000

theorem getLast?_mem' {α : Type} : ∀ (l : List α) (a : α), l.getLast? = some a → a ∈ l
  | [], _, h => by simp [List.getLast?] at h
  | [b], a, h => by
    simp [List.getLast?] at h
    simp [h]
  | b :: b' :: l, a, h => by
    have : (b' :: l).getLast? = some a := by
      rwa [List.getLast?_cons_cons] at h
    exact List.mem_cons_of_mem b (getLast?_mem' (b' :: l) a this)

theorem lastWsIndex_lt (l : List Char) (i : Nat) (h : lastWsIndex l = some i) :
    i < l.length := by
  have hmem := getLast?_mem' _ i h
  have := List.mem_range.mp (List.mem_of_mem_filter hmem)
  exact this

theorem chunkBreak_pos (s : List Char) (h : s ≠ []) : 0 < chunkBreak s := by
  unfold chunkBreak
  split
  · exact List.length_pos.mpr h
  · split <;> omega

theorem chunkBreak_le_5000 (s : List Char) (h : ¬ s.length ≤ 5000) :
    chunkBreak s ≤ 5000 := by
  unfold chunkBreak
  rw [if_neg h]
  split
  · next i hi =>
    have := lastWsIndex_lt _ i hi
    have hlen : (s.take 5000).length = 5000 := by
      rw [List.length_take]
      omega
    omega
  · omega

theorem chunkBreak_le_length (s : List Char) : chunkBreak s ≤ s.length := by
  by_cases h : s.length ≤ 5000
  · unfold chunkBreak
    rw [if_pos h]
  · have := chunkBreak_le_5000 s h
    omega

/-- Modelled from the spec: the raw source ranges of the chunks — a greedy
left-to-right partition of the text into consecutive pieces of at most
5000 characters, cut at a whitespace boundary when possible. -/
def splitRaw (s : List Char) : List (List Char) :=
  if h : s = [] then []
  else s.take (chunkBreak s) :: splitRaw (s.drop (chunkBreak s))
termination_by s.length
decreasing_by
  have h1 := chunkBreak_pos s h
  have h2 : 0 < s.length := List.length_pos.mpr h
  simp only [List.length_drop]
  omega

/-- Modelled from the spec: the chunk sequence handed to the model calls —
each raw range with its boundary whitespace stripped, empty chunks
discarded. -/
def splitText (s : List Char) : List (List Char) :=
  ((splitRaw s).map strip).filter (fun c => !c.isEmpty)

theorem splitRaw_flatten (s : List Char) : (splitRaw s).flatten = s := by
  induction s using splitRaw.induct with
  | case1 => simp [splitRaw]
  | case2 s h ih =>
    rw [splitRaw, dif_neg h]
    simp [ih]

theorem splitRaw_chunk_le (s : List Char) :
    ∀ c ∈ splitRaw s, c.length ≤ 5000 := by
  induction s using splitRaw.induct with
  | case1 =>
    intro c hc
    simp [splitRaw] at hc
  | case2 s h ih =>
    intro c hc
    rw [splitRaw, dif_neg h] at hc
    rcases List.mem_cons.mp hc with hc | hc
    · subst hc
      rw [List.length_take]
      by_cases hlen : s.length ≤ 5000
      · unfold chunkBreak
        rw [if_pos hlen]
        omega
      · have := chunkBreak_le_5000 s hlen
        omega
    · exact ih c hc

theorem splitRaw_short (s : List Char) (h1 : s ≠ []) (h2 : s.length ≤ 5000) :
    splitRaw s = [s] := by
  rw [splitRaw, dif_neg h1]
  have hbk : chunkBreak s = s.length := by
    unfold chunkBreak
    rw [if_pos h2]
  rw [hbk, List.take_length, List.drop_length, splitRaw]
  simp

theorem length_dropWhile_le' (p : Char → Bool) (l : List Char) :
    (l.dropWhile p).length ≤ l.length := by
  induction l with
  | nil => simp [List.dropWhile]
  | cons c cs ih =>
    rw [List.dropWhile]
    split <;> simp <;> omega

theorem strip_length_le (s : List Char) : (strip s).length ≤ s.length := by
  unfold strip
  rw [List.length_reverse]
  calc ((s.dropWhile isWs).reverse.dropWhile isWs).length
      ≤ (s.dropWhile isWs).reverse.length := length_dropWhile_le' _ _
    _ = (s.dropWhile isWs).length := List.length_reverse _
    _ ≤ s.length := length_dropWhile_le' _ _

/-- One Except-valued model call per chunk (lines 59-79 of the source:
`response = llm.invoke(...)`, `extracted_data.append(response.content.strip())`).
The oracle `llm` maps a chunk index and the chunk text to either the raw
response text or an error raised by the remote service.  Returns the
collected stripped responses (or the first error, propagated unchanged)
together with the list of chunk indices actually sent to the model. -/
def runChunks (llm : Nat → List Char → Except String (List Char)) :
    Nat → List (List Char) → Except String (List (List Char)) × List Nat
  | _, [] => (Except.ok [], [])
  | i, c :: cs =>
    match llm i c with
    | Except.error e => (Except.error e, [i])
    | Except.ok r =>
      let p := runChunks llm (i + 1) cs
      (p.1.map (fun rs => strip r :: rs), i :: p.2)

/-- Extension dispatch of `process_document` (lines 48-49 of the source):
PDF text for extension "pdf", DOCX text for "docx", empty text otherwise.
The third-party PDF/DOCX parsers are abstracted as the already-extracted
texts `pdfText` and `docxText`. -/
def extractedText (name pdfText docxText : List Char) : List Char :=
  if fileExtension name = "pdf".toList then pdfText
  else if fileExtension name = "docx".toList then docxText
  else []

/-- `process_document` (lines 47-81 of the source): dispatch on the file
extension, return `none` when the extracted text is empty (`if not text:
return None`), otherwise split into chunks and run one model call per
chunk.  The second component records which chunk indices were sent to
the model. -/
def processDocument (llm : Nat → List Char → Except String (List Char))
    (name pdfText docxText : List Char) :
    Option (Except String (List (List Char))) × List Nat :=
  let text := extractedText name pdfText docxText
  if text = [] then (none, [])
  else
    let p := runChunks llm 0 (splitText text)
    (some p.1, p.2)

theorem runChunks_first_error (llm : Nat → List Char → Except String (List Char)) :
    ∀ (chunks : List (List Char)) (k i : Nat) (e : String),
      i < chunks.length →
      (∀ j, j < i → (llm (k + j) (chunks.getD j [])).isOk = true) →
      llm (k + i) (chunks.getD i []) = Except.error e →
      (runChunks llm k chunks).1 = Except.error e ∧
        (runChunks llm k chunks).2 = List.range' k (i + 1)
  | [], _, i, _, hi, _, _ => absurd hi (by simp)
  | c :: cs, k, 0, e, _, _, hfail => by
    simp only [List.getD_cons_zero, Nat.add_zero] at hfail
    simp [runChunks, hfail, List.range']
  | c :: cs, k, i + 1, e, hi, hok, hfail => by
    have h0 : (llm (k + 0) ((c :: cs).getD 0 [])).isOk = true := hok 0 (by omega)
    simp only [List.getD_cons_zero, Nat.add_zero] at h0
    cases hc : llm k c with
    | error e' => rw [hc] at h0; simp [Except.isOk, Except.toBool] at h0
    | ok r =>
      have hok' : ∀ j, j < i → (llm (k + 1 + j) (cs.getD j [])).isOk = true := by
        intro j hj
        have := hok (j + 1) (by omega)
        simpa [Nat.add_comm, Nat.add_assoc, Nat.add_left_comm] using this
      have hfail' : llm (k + 1 + i) (cs.getD i []) = Except.error e := by
        have := hfail
        simpa [Nat.add_comm, Nat.add_assoc, Nat.add_left_comm] using this
      have ih := runChunks_first_error llm cs (k + 1) i e (by simpa using hi) hok' hfail'
      simp only [runChunks, hc]
      constructor
      · rw [ih.1]
        rfl
      · rw [List.range'_succ]
        simp only [ih.2]

/-- An openpyxl worksheet: `maxCol` is `sheet.max_column`, `cells r c` is
`sheet.cell(row=r, column=c).value` (1-based coordinates, `none` for an
empty cell), and `wrap r c` records whether the cell's alignment has
`wrap_text=True`. -/
structure Sheet where
  maxCol : Nat
  cells : Nat → Nat → Option (List Char)
  wrap : Nat → Nat → Bool

/-- `sheet.cell(row=r, column=c, value=v)` — pointwise update of the cell
value map. -/
def writeCell (f : Nat → Nat → Option (List Char)) (r c : Nat)
    (v : Option (List Char)) : Nat → Nat → Option (List Char) :=
  fun r' c' => if r' = r ∧ c' = c then v else f r' c'

/-- `.alignment = Alignment(wrap_text=True)` on one cell. -/
def setWrap (g : Nat → Nat → Bool) (r c : Nat) : Nat → Nat → Bool :=
  fun r' c' => if r' = r ∧ c' = c then true else g r' c'

/-- Header value of column `c`. -/
def headerText : List Char := "Description".toList

/-- Header value of the optional second column. -/
def header2Text : List Char := "Description 2".toList

/-- `col_indices.get(v)` for the dictionary
`{col[0].value: col[0].column for col in sheet.iter_cols(1, sheet.max_column)}`
(line 114 of the source): the column index bound to header value `v`.
Python dict comprehension keeps the last binding for a repeated key, so
this is the last column in 1..maxCol whose row-1 cell holds `v`. -/
def colIndex (s : Sheet) (v : List Char) : Option Nat :=
  ((List.range' 1 s.maxCol).filter (fun c => s.cells 1 c = some v)).getLast?

/-- The write loop of the Fill Template handler (lines 119-126 of the
source): starting at `r`, write one line per row into column `dc` with
wrap-text alignment, and, when `d2` is present, clear that row's `d2`
cell to the empty string. -/
def fillRows (dc : Nat) (d2 : Option Nat) : Nat → List (List Char) → Sheet → Sheet
  | _, [], s => s
  | r, line :: rest, s =>
    let s1 : Sheet :=
      { s with cells := writeCell s.cells r dc (some line),
               wrap := setWrap s.wrap r dc }
    let s2 : Sheet :=
      match d2 with
      | some c2 => { s1 with cells := writeCell s1.cells r c2 (some []) }
      | none => s1
    fillRows dc d2 (r + 1) rest s2

/-- The Fill Template handler (lines 109-133 of the source): look up the
"Description" and "Description 2" columns from the header row; if
"Description" is absent report the error and write nothing, otherwise
fill rows 2 onward from the edited lines and hand back the workbook. -/
def fillTemplate (s : Sheet) (lines : List (List Char)) : Except String Sheet :=
  match colIndex s headerText with
  | none => Except.error "Description column not found"
  | some dc => Except.ok (fillRows dc (colIndex s header2Text) 2 lines s)

theorem colIndex_spec (s : Sheet) (v : List Char) (c : Nat)
    (h : colIndex s v = some c) :
    s.cells 1 c = some v ∧ 1 ≤ c ∧ c ≤ s.maxCol := by
  have hmem := getLast?_mem' _ c h
  have hval : s.cells 1 c = some v := by
    have := List.of_mem_filter hmem
    simpa using this
  have hrange := List.mem_filter.mp hmem |>.1
  rw [List.mem_range'] at hrange
  obtain ⟨i, hi, hc⟩ := hrange
  exact ⟨hval, by omega, by omega⟩

theorem colIndex_none (s : Sheet) (v : List Char)
    (h : ∀ c, c < s.maxCol + 1 → (1 ≤ c → s.cells 1 c ≠ some v)) :
    colIndex s v = none := by
  unfold colIndex
  have hfil : (List.range' 1 s.maxCol).filter (fun c => s.cells 1 c = some v) = [] := by
    rw [List.filter_eq_nil]
    intro c hc
    rw [List.mem_range'] at hc
    obtain ⟨i, hi, hrange⟩ := hc
    have := h c (by omega) (by omega)
    simpa using this
  rw [hfil]
  rfl


theorem fillRows_cells_frame (dc : Nat) (d2 : Option Nat) (rest : List (List Char)) :
    ∀ (r : Nat) (s : Sheet) (r' c : Nat), c ≠ dc → (∀ c2, d2 = some c2 → c ≠ c2) →
      (fillRows dc d2 r rest s).cells r' c = s.cells r' c := by
  induction rest with
  | nil =>
    intro r s r' c _ _
    rfl
  | cons line rest ih =>
    intro r s r' c hdc hd2
    simp only [fillRows]
    rw [ih (r + 1) _ r' c hdc hd2]
    cases hd : d2 with
    | none => simp [writeCell, hdc]
    | some c2 =>
      have hc2 := hd2 c2 hd
      simp [hd, writeCell, hdc, hc2]

theorem fillRows_wrap_frame (dc : Nat) (d2 : Option Nat) (rest : List (List Char)) :
    ∀ (r : Nat) (s : Sheet) (r' c : Nat), c ≠ dc →
      (fillRows dc d2 r rest s).wrap r' c = s.wrap r' c := by
  induction rest with
  | nil =>
    intro r s r' c _
    rfl
  | cons line rest ih =>
    intro r s r' c hdc
    simp only [fillRows]
    rw [ih (r + 1) _ r' c hdc]
    cases hd : d2 with
    | none => simp [setWrap, hdc]
    | some c2 => simp [hd, setWrap, hdc]

theorem fillRows_row_frame (dc : Nat) (d2 : Option Nat) (rest : List (List Char)) :
    ∀ (r : Nat) (s : Sheet) (r' c : Nat), r' < r ∨ r + rest.length ≤ r' →
      (fillRows dc d2 r rest s).cells r' c = s.cells r' c ∧
        (fillRows dc d2 r rest s).wrap r' c = s.wrap r' c := by
  induction rest with
  | nil =>
    intro r s r' c _
    exact ⟨rfl, rfl⟩
  | cons line rest ih =>
    intro r s r' c hr
    have hlen : (line :: rest).length = rest.length + 1 := by simp
    have hr'' : r' ≠ r := by omega
    have hrec : r' < r + 1 ∨ (r + 1) + rest.length ≤ r' := by omega
    simp only [fillRows]
    refine ⟨Eq.trans ((ih (r + 1) _ r' c hrec).1) ?_,
      Eq.trans ((ih (r + 1) _ r' c hrec).2) ?_⟩
    · cases hd : d2 with
      | none => simp [writeCell, hr'']
      | some c2 => simp [hd, writeCell, hr'']
    · cases hd : d2 with
      | none => simp [setWrap, hr'']
      | some c2 => simp [hd, setWrap, hr'']

theorem fillRows_desc2_cleared (dc c2 : Nat) (rest : List (List Char)) :
    ∀ (r : Nat) (s : Sheet) (i : Nat), i < rest.length →
      (fillRows dc (some c2) r rest s).cells (r + i) c2 = some [] := by
  induction rest with
  | nil =>
    intro r s i hi
    simp at hi
  | cons line rest ih =>
    intro r s i hi
    simp only [fillRows]
    cases i with
    | zero =>
      refine Eq.trans ((fillRows_row_frame dc (some c2) rest (r + 1) _ (r + 0) c2
        (by omega)).1) ?_
      simp [writeCell]
    | succ i =>
      rw [show r + (i + 1) = (r + 1) + i by omega]
      exact ih (r + 1) _ i (by simpa using hi)

theorem fillRows_desc_written (dc : Nat) (d2 : Option Nat)
    (hne : ∀ c2, d2 = some c2 → c2 ≠ dc) (rest : List (List Char)) :
    ∀ (r : Nat) (s : Sheet) (i : Nat), i < rest.length →
      (fillRows dc d2 r rest s).cells (r + i) dc = some (rest.getD i []) ∧
        (fillRows dc d2 r rest s).wrap (r + i) dc = true := by
  induction rest with
  | nil =>
    intro r s i hi
    simp at hi
  | cons line rest ih =>
    intro r s i hi
    simp only [fillRows]
    cases i with
    | zero =>
      refine ⟨Eq.trans ((fillRows_row_frame dc d2 rest (r + 1) _ (r + 0) dc
          (by omega)).1) ?_,
        Eq.trans ((fillRows_row_frame dc d2 rest (r + 1) _ (r + 0) dc
          (by omega)).2) ?_⟩
      · cases hd : d2 with
        | none => simp [writeCell]
        | some c2 =>
          have hc2 : dc ≠ c2 := Ne.symm (hne c2 hd)
          simp [hd, writeCell, hc2]
      · cases hd : d2 with
        | none => simp [setWrap]
        | some c2 => simp [hd, setWrap]
    | succ i =>
      rw [show r + (i + 1) = (r + 1) + i by omega]
      simp only [List.getD_cons_succ]
      exact ih (r + 1) _ i (by simpa using hi)

/-- `st.session_state` as seen by this script (lines 89-106 of the
source).  `extracted` is `none` when the key `"extracted_data"` is absent
and `some v` when present with value `v` (`v = none` models Python
`None`, the result of `process_document` on empty text). -/
structure Session where
  extracted : Option (Option (List (List Char)))
  fileName : Option (List Char)
  edited : Option (List (List Char))

/-- The guard at lines 90-93 of the source: on an upload, re-run
extraction when the `"extracted_data"` key is absent or the stored file
name differs from the uploaded name; the Bool reports whether extraction
ran.  `extractFn` abstracts `process_document` on the uploaded file. -/
def uploadGuard (extractFn : List Char → Option (List (List Char)))
    (s : Session) (name : List Char) : Session × Bool :=
  if s.extracted = none ∨ s.fileName ≠ some name then
    ({ s with extracted := some (extractFn name), fileName := some name }, true)
  else (s, false)

/-- The review/edit glue at lines 96-106 of the source: when extracted
data is present and non-empty (Python truthiness), the text area shows
the user's text — or its default `"\n".join(extracted_data)` when the
user has not edited (`userText = none`) — and `edited_data` is that text
split on newlines. -/
def reviewGlue (s : Session) (userText : Option (List Char)) : Session :=
  match s.extracted with
  | some (some blocks) =>
    if blocks.isEmpty then s
    else { s with edited := some (splitNl (userText.getD (joinNl blocks))) }
  | _ => s

/-- One script run: the upload guard followed by the review glue; the
Bool reports whether extraction ran during this run. -/
def scriptRun (extractFn : List Char → Option (List (List Char)))
    (s : Session) (upload : Option (List Char)) (userText : Option (List Char)) :
    Session × Bool :=
  let p :=
    match upload with
    | some name => uploadGuard extractFn s name
    | none => (s, false)
  (reviewGlue p.1 userText, p.2)

theorem reviewGlue_extracted (s : Session) (u : Option (List Char)) :
    (reviewGlue s u).extracted = s.extracted := by
  unfold reviewGlue
  split
  · split <;> rfl
  · rfl

theorem colIndex_desc2_ne (s : Sheet) (dc c2 : Nat)
    (h : colIndex s headerText = some dc)
    (h2 : colIndex s header2Text = some c2) : c2 ≠ dc := by
  intro he
  have a1 := (colIndex_spec s headerText dc h).1
  have a2 := (colIndex_spec s header2Text c2 h2).1
  rw [he, a1] at a2
  exact absurd (Option.some.inj a2) (by decide)

/-- Template workbook with header row `["ID", "Description", "Description 2"]`
and no other content. -/
def tpl3 : Sheet where
  maxCol := 3
  cells := fun r c =>
    if r = 1 ∧ c = 1 then some "ID".toList
    else if r = 1 ∧ c = 2 then some "Description".toList
    else if r = 1 ∧ c = 3 then some "Description 2".toList
    else none
  wrap := fun _ _ => false

/-- Template workbook whose header row `["ID", "Name"]` has no
"Description" column. -/
def tplNoDesc : Sheet where
  maxCol := 2
  cells := fun r c =>
    if r = 1 ∧ c = 1 then some "ID".toList
    else if r = 1 ∧ c = 2 then some "Name".toList
    else none
  wrap := fun _ _ => false

/-- C1: on a template with headers ["ID", "Description", "Description 2"]
and edited lines ["Row A", "Row B"], the fill operation writes "Row A" to
cell (2, Description), "Row B" to cell (3, Description), and the empty
string to cells (2, Description 2) and (3, Description 2) — the lines go
1:1 into successive rows starting at row 2. -/
theorem C1_template_fill :
    (fillTemplate tpl3 ["Row A".toList, "Row B".toList]).toOption.map
        (fun w => (w.cells 2 2, w.cells 3 2, w.cells 2 3, w.cells 3 3)) =
      some (some "Row A".toList, some "Row B".toList, some [], some []) := by
  decide

/-- C2: for every template whose header row has no column literally named
"Description", the fill operation fails with the TemplateError
"Description column not found" for every list of edited lines — no
workbook is produced (so no cell writes and no output file). -/
theorem C2_missing_description (s : Sheet)
    (h : ∀ c, c < s.maxCol + 1 → 1 ≤ c → s.cells 1 c ≠ some headerText) :
    ∀ lines : List (List Char),
      fillTemplate s lines = Except.error "Description column not found" := by
  intro lines
  unfold fillTemplate
  rw [colIndex_none s headerText h]

theorem C2_witness :
    (∀ c, c < tplNoDesc.maxCol + 1 → 1 ≤ c →
      tplNoDesc.cells 1 c ≠ some headerText) ∧
      fillTemplate tplNoDesc ["x".toList] =
        Except.error "Description column not found" :=
  ⟨by decide, C2_missing_description tplNoDesc (by decide) ["x".toList]⟩

/-- C3 counterexample: an ExtractionResult of length 1 whose single block
contains a newline: joining with newlines and re-splitting yields 2 lines
that are not the original blocks, refuting the claim that EditedLines
always equal the N blocks. -/
theorem C3_counterexample :
    splitNl (joinNl [['a', '\n', 'b']]) = [['a'], ['b']] ∧
      splitNl (joinNl [['a', '\n', 'b']]) ≠ [['a', '\n', 'b']] ∧
      (splitNl (joinNl [['a', '\n', 'b']])).length ≠
        ([['a', '\n', 'b']] : List (List Char)).length := by
  refine ⟨by decide, by decide, by decide⟩

/-- C3 (amended): for every non-empty ExtractionResult, the EditedLines
with no user edits (join the blocks with newlines, split on newlines)
equal the concatenation of each block's own newline-split lines; when no
block contains a newline this is exactly the N original blocks. -/
theorem C3_edited_lines (bs : List (List Char)) (h1 : bs ≠ []) :
    splitNl (joinNl bs) = (bs.map splitNl).flatten ∧
      ((∀ b ∈ bs, ('\n' : Char) ∉ b) → splitNl (joinNl bs) = bs) :=
  ⟨splitNl_joinNl bs h1, fun h2 => splitNl_joinNl_of_no_newline bs h1 h2⟩

theorem C3_witness :
    ([['a'], ['b']] : List (List Char)) ≠ [] ∧
      (splitNl (joinNl [['a'], ['b']]) =
          ((([['a'], ['b']] : List (List Char))).map splitNl).flatten ∧
        ((∀ b ∈ ([['a'], ['b']] : List (List Char)), ('\n' : Char) ∉ b) →
          splitNl (joinNl [['a'], ['b']]) = [['a'], ['b']])) :=
  ⟨by decide, C3_edited_lines [['a'], ['b']] (by decide)⟩

/-- C4: for every text longer than 5000 characters, the chunks' raw
source ranges concatenated in order reconstruct the text exactly (no
characters lost, zero overlap — the ranges partition the text), no raw
range exceeds 5000 characters, and the emitted chunks are exactly those
ranges after boundary-whitespace stripping (hence also within the cap). -/
theorem C4_chunk_reconstruction (s : List Char) (h : 5000 < s.length) :
    (splitRaw s).flatten = s ∧
      (∀ c ∈ splitRaw s, c.length ≤ 5000) ∧
      splitText s = ((splitRaw s).map strip).filter (fun c => !c.isEmpty) ∧
      (∀ c ∈ splitText s, c.length ≤ 5000) := by
  refine ⟨splitRaw_flatten s, splitRaw_chunk_le s, rfl, ?_⟩
  intro c hc
  have hmem := List.mem_of_mem_filter hc
  obtain ⟨raw, hraw, hstrip⟩ := List.mem_map.mp hmem
  calc c.length = (strip raw).length := by rw [hstrip]
    _ ≤ raw.length := strip_length_le raw
    _ ≤ 5000 := splitRaw_chunk_le s raw hraw

theorem C4_witness :
    5000 < (List.replicate 5001 'a').length ∧
      ((splitRaw (List.replicate 5001 'a')).flatten = List.replicate 5001 'a' ∧
        (∀ c ∈ splitRaw (List.replicate 5001 'a'), c.length ≤ 5000) ∧
        splitText (List.replicate 5001 'a') =
          ((splitRaw (List.replicate 5001 'a')).map strip).filter
            (fun c => !c.isEmpty) ∧
        (∀ c ∈ splitText (List.replicate 5001 'a'), c.length ≤ 5000)) :=
  ⟨by rw [List.length_replicate]; omega,
    C4_chunk_reconstruction (List.replicate 5001 'a')
      (by rw [List.length_replicate]; omega)⟩

/-- C5: non-empty text of at most 5000 characters that is already
whitespace-normalized (as extraction leaves it) splits into exactly one
chunk equal to the text itself; empty text splits into zero chunks, and
`process_document` treats empty extracted text as "no content" (returns
None, issuing no model calls). -/
theorem C5_single_chunk (s : List Char) (h1 : s ≠ []) (h2 : s.length ≤ 5000)
    (h3 : strip s = s) :
    splitText s = [s] ∧ splitText [] = [] ∧
      (∀ llm name pd dd, extractedText name pd dd = [] →
        processDocument llm name pd dd = (none, [])) := by
  refine ⟨?_, ?_, ?_⟩
  · unfold splitText
    rw [splitRaw_short s h1 h2]
    simp [h3, h1]
  · unfold splitText
    rw [splitRaw]
    simp
  · intro llm name pd dd h
    unfold processDocument
    simp [h]

theorem C5_witness :
    ("abc".toList ≠ [] ∧ "abc".toList.length ≤ 5000 ∧
        strip "abc".toList = "abc".toList) ∧
      (splitText "abc".toList = ["abc".toList] ∧ splitText [] = [] ∧
        (∀ llm name pd dd, extractedText name pd dd = [] →
          processDocument llm name pd dd = (none, []))) :=
  ⟨⟨by decide, by decide, by decide⟩,
    C5_single_chunk "abc".toList (by decide) (by decide) (by decide)⟩

/-- C6: an uploaded file whose name's extension is neither "pdf" nor
"docx" yields empty extracted text, and `process_document` returns None
with no model calls issued — the chunk loop is never entered. -/
theorem C6_unsupported_extension (name pd dd : List Char)
    (llm : Nat → List Char → Except String (List Char))
    (h1 : fileExtension name ≠ "pdf".toList)
    (h2 : fileExtension name ≠ "docx".toList) :
    extractedText name pd dd = [] ∧
      processDocument llm name pd dd = (none, []) := by
  have he : extractedText name pd dd = [] := by
    unfold extractedText
    rw [if_neg h1, if_neg h2]
  refine ⟨he, ?_⟩
  unfold processDocument
  simp [he]

theorem C6_witness :
    (fileExtension "notes.txt".toList ≠ "pdf".toList ∧
        fileExtension "notes.txt".toList ≠ "docx".toList) ∧
      (extractedText "notes.txt".toList "p".toList "d".toList = [] ∧
        processDocument (fun _ c => Except.ok c) "notes.txt".toList
          "p".toList "d".toList = (none, [])) :=
  ⟨⟨by decide, by decide⟩,
    C6_unsupported_extension "notes.txt".toList "p".toList "d".toList
      (fun _ c => Except.ok c) (by decide) (by decide)⟩

/-- Remote model oracle that fails at every chunk with the same service
error, regardless of the chunk index. -/
def llmAllFail : Nat → List Char → Except String (List Char) :=
  fun _ _ => Except.error "rate limit"

/-- Remote model oracle that succeeds on chunk 0 and fails from chunk 1
on, with the same service error as `llmAllFail`. -/
def llmFailFrom1 : Nat → List Char → Except String (List Char) :=
  fun i c => if i = 0 then Except.ok c else Except.error "rate limit"

/-- C7 counterexample: two runs over the same two chunks whose first
failing chunk index differs (0 in one run, 1 in the other, as the call
traces show) surface the very same propagated error value — the error
the chunk loop propagates carries no ExtractionError wrapper and does
not identify the failing chunk index. -/
theorem C7_counterexample :
    (runChunks llmAllFail 0 [['a'], ['b']]).1 = Except.error "rate limit" ∧
      (runChunks llmFailFrom1 0 [['a'], ['b']]).1 = Except.error "rate limit" ∧
      (runChunks llmAllFail 0 [['a'], ['b']]).2 = [0] ∧
      (runChunks llmFailFrom1 0 [['a'], ['b']]).2 = [0, 1] :=
  ⟨rfl, rfl, rfl, rfl⟩

/-- C7 (amended): when the model call for chunk `i` is the first to fail,
the chunk loop propagates that service error unchanged (surfacing it
rather than silently skipping) and aborts the remaining chunks — exactly
chunks 0..i are sent, none after `i`; the propagated error is the raw
service error, not an ExtractionError carrying the chunk index. -/
theorem C7_error_propagation (llm : Nat → List Char → Except String (List Char))
    (chunks : List (List Char)) (i : Nat) (e : String)
    (hi : i < chunks.length)
    (hok : ∀ j, j < i → (llm j (chunks.getD j [])).isOk = true)
    (hfail : llm i (chunks.getD i []) = Except.error e) :
    (runChunks llm 0 chunks).1 = Except.error e ∧
      (runChunks llm 0 chunks).2 = List.range (i + 1) := by
  have h := runChunks_first_error llm chunks 0 i e hi
    (by simpa using hok) (by simpa using hfail)
  refine ⟨h.1, ?_⟩
  rw [h.2, List.range_eq_range']

/-- Oracle for the C7 witness: fails exactly at chunk index 1. -/
def llmFailAt1 : Nat → List Char → Except String (List Char) :=
  fun i c => if i = 1 then Except.error "boom" else Except.ok c

theorem C7_witness :
    (1 < ([['a'], ['b'], ['c']] : List (List Char)).length ∧
        (∀ j, j < 1 →
          (llmFailAt1 j (([['a'], ['b'], ['c']] : List (List Char)).getD j [])).isOk
            = true) ∧
        llmFailAt1 1 (([['a'], ['b'], ['c']] : List (List Char)).getD 1 []) =
          Except.error "boom") ∧
      ((runChunks llmFailAt1 0 [['a'], ['b'], ['c']]).1 = Except.error "boom" ∧
        (runChunks llmFailAt1 0 [['a'], ['b'], ['c']]).2 = List.range 2) :=
  ⟨⟨by decide, by decide, rfl⟩,
    C7_error_propagation llmFailAt1 [['a'], ['b'], ['c']] 1 "boom"
      (by decide) (by decide) rfl⟩

/-- C8: when the "Description" column is found the fill succeeds and, in
the filled workbook, every filled row's "Description 2" cell (when that
column is present) is the empty string; every cell in a column other
than "Description" and "Description 2" keeps its template value (and
wrap-text alignment is added only in the "Description" column); and
every cell in a row outside 2..(1 + number of lines) — the header row
and all untouched rows — is unchanged. -/
theorem C8_fill_frame (s : Sheet) (lines : List (List Char)) (dc : Nat)
    (h : colIndex s headerText = some dc) :
    fillTemplate s lines =
        Except.ok (fillRows dc (colIndex s header2Text) 2 lines s) ∧
      (∀ c2, colIndex s header2Text = some c2 →
        ∀ i, i < lines.length →
          (fillRows dc (colIndex s header2Text) 2 lines s).cells (2 + i) c2 =
            some []) ∧
      (∀ r c, c ≠ dc → (∀ c2, colIndex s header2Text = some c2 → c ≠ c2) →
        (fillRows dc (colIndex s header2Text) 2 lines s).cells r c =
          s.cells r c) ∧
      (∀ r c, c ≠ dc →
        (fillRows dc (colIndex s header2Text) 2 lines s).wrap r c =
          s.wrap r c) ∧
      (∀ r c, r < 2 ∨ 2 + lines.length ≤ r →
        (fillRows dc (colIndex s header2Text) 2 lines s).cells r c =
            s.cells r c ∧
          (fillRows dc (colIndex s header2Text) 2 lines s).wrap r c =
            s.wrap r c) := by
  refine ⟨?_, ?_, ?_, ?_, ?_⟩
  · unfold fillTemplate
    rw [h]
  · intro c2 hc2 i hi
    rw [hc2]
    exact fillRows_desc2_cleared dc c2 lines 2 s i hi
  · intro r c hdc hd2
    exact fillRows_cells_frame dc (colIndex s header2Text) lines 2 s r c hdc hd2
  · intro r c hdc
    exact fillRows_wrap_frame dc (colIndex s header2Text) lines 2 s r c hdc
  · intro r c hr
    exact fillRows_row_frame dc (colIndex s header2Text) lines 2 s r c hr

theorem C8_witness :
    colIndex tpl3 headerText = some 2 ∧
      (fillTemplate tpl3 ["a".toList] =
          Except.ok (fillRows 2 (colIndex tpl3 header2Text) 2 ["a".toList] tpl3) ∧
        (∀ c2, colIndex tpl3 header2Text = some c2 →
          ∀ i, i < (["a".toList] : List (List Char)).length →
            (fillRows 2 (colIndex tpl3 header2Text) 2 ["a".toList] tpl3).cells
              (2 + i) c2 = some []) ∧
        (∀ r c, c ≠ 2 → (∀ c2, colIndex tpl3 header2Text = some c2 → c ≠ c2) →
          (fillRows 2 (colIndex tpl3 header2Text) 2 ["a".toList] tpl3).cells r c =
            tpl3.cells r c) ∧
        (∀ r c, c ≠ 2 →
          (fillRows 2 (colIndex tpl3 header2Text) 2 ["a".toList] tpl3).wrap r c =
            tpl3.wrap r c) ∧
        (∀ r c, r < 2 ∨ 2 + (["a".toList] : List (List Char)).length ≤ r →
          (fillRows 2 (colIndex tpl3 header2Text) 2 ["a".toList] tpl3).cells r c =
              tpl3.cells r c ∧
            (fillRows 2 (colIndex tpl3 header2Text) 2 ["a".toList] tpl3).wrap r c =
              tpl3.wrap r c)) :=
  ⟨by decide, C8_fill_frame tpl3 ["a".toList] 2 (by decide)⟩

theorem reviewGlue_fileName (s : Session) (u : Option (List Char)) :
    (reviewGlue s u).fileName = s.fileName := by
  unfold reviewGlue
  split
  · split <;> rfl
  · rfl

/-- Extraction oracle for the C9 witness. -/
def extractW : List Char → Option (List (List Char)) :=
  fun _ => some [['x']]

/-- Extraction oracle modelling a new document with no extractable text:
`process_document` returns None (line 52 of the source). -/
def extractNone : List Char → Option (List (List Char)) :=
  fun _ => none

/-- Stored session for C9: a previous document "old.pdf" with its
extraction and edited lines. -/
def sessW : Session where
  extracted := some (some [['o']])
  fileName := some "old.pdf".toList
  edited := some [['o']]

/-- C9 counterexample: uploading "new.pdf" — a name that differs from the
stored "old.pdf" — whose extraction yields no content does re-run
extraction and replaces the stored ExtractionResult with None, but the
previous document's EditedLines survive in the store: the truthiness
guard at line 96 of the source skips the review glue and nothing deletes
`edited_data`, so the claimed discard of EditedLines on every
differently-named upload fails here. -/
theorem C9_counterexample :
    sessW.fileName ≠ some "new.pdf".toList ∧
      (scriptRun extractNone sessW (some "new.pdf".toList) none).2 = true ∧
      (scriptRun extractNone sessW (some "new.pdf".toList) none).1.extracted =
        some none ∧
      sessW.edited = some [['o']] ∧
      (scriptRun extractNone sessW (some "new.pdf".toList) none).1.edited =
        some [['o']] :=
  ⟨by decide, rfl, rfl, rfl, rfl⟩

/-- C9 (amended): uploading a document whose name differs from the stored
file name re-runs extraction and replaces the stored ExtractionResult
with the new document's extraction; the EditedLines are rebuilt from the
new blocks — discarding the previous ones — exactly when the new
extraction yields non-empty content, while a new extraction with no
content (None or an empty block list) leaves the previous EditedLines in
the store; uploading a document with the stored name (while extracted
data is present) does not re-run extraction and keeps the stored
ExtractionResult. -/
theorem C9_review_store (extractFn : List Char → Option (List (List Char)))
    (s : Session) (name : List Char)
    (hdiff : s.fileName ≠ some name) :
    (scriptRun extractFn s (some name) none).2 = true ∧
      (scriptRun extractFn s (some name) none).1.extracted =
        some (extractFn name) ∧
      (scriptRun extractFn s (some name) none).1.fileName = some name ∧
      (∀ blocks, extractFn name = some blocks → blocks ≠ [] →
        (scriptRun extractFn s (some name) none).1.edited =
          some (splitNl (joinNl blocks))) ∧
      ((extractFn name = none ∨ extractFn name = some []) →
        (scriptRun extractFn s (some name) none).1.edited = s.edited) ∧
      (∀ m u, s.extracted ≠ none → s.fileName = some m →
        (scriptRun extractFn s (some m) u).2 = false ∧
          (scriptRun extractFn s (some m) u).1.extracted = s.extracted) := by
  have hguard : uploadGuard extractFn s name =
      ({ s with extracted := some (extractFn name), fileName := some name },
        true) := by
    unfold uploadGuard
    rw [if_pos (Or.inr hdiff)]
  refine ⟨?_, ?_, ?_, ?_, ?_, ?_⟩
  · simp [scriptRun, hguard]
  · simp [scriptRun, hguard, reviewGlue_extracted]
  · simp [scriptRun, hguard, reviewGlue_fileName]
  · intro blocks hex hne
    have hempty : blocks.isEmpty = false := by
      cases blocks with
      | nil => exact absurd rfl hne
      | cons b bs => rfl
    simp [scriptRun, hguard, reviewGlue, hex, hempty]
  · intro hx
    rcases hx with hx | hx <;> simp [scriptRun, hguard, reviewGlue, hx]
  · intro m u hx hm
    have hguard2 : uploadGuard extractFn s m = (s, false) := by
      unfold uploadGuard
      rw [if_neg]
      simp [hx, hm]
    constructor
    · simp [scriptRun, hguard2]
    · simp [scriptRun, hguard2, reviewGlue_extracted]

theorem C9_witness :
    sessW.fileName ≠ some "new.pdf".toList ∧
      ((scriptRun extractW sessW (some "new.pdf".toList) none).2 = true ∧
        (scriptRun extractW sessW (some "new.pdf".toList) none).1.extracted =
          some (extractW "new.pdf".toList) ∧
        (scriptRun extractW sessW (some "new.pdf".toList) none).1.fileName =
          some "new.pdf".toList ∧
        (∀ blocks, extractW "new.pdf".toList = some blocks → blocks ≠ [] →
          (scriptRun extractW sessW (some "new.pdf".toList) none).1.edited =
            some (splitNl (joinNl blocks))) ∧
        ((extractW "new.pdf".toList = none ∨
            extractW "new.pdf".toList = some []) →
          (scriptRun extractW sessW (some "new.pdf".toList) none).1.edited =
            sessW.edited) ∧
        (∀ m u, sessW.extracted ≠ none → sessW.fileName = some m →
          (scriptRun extractW sessW (some m) u).2 = false ∧
            (scriptRun extractW sessW (some m) u).1.extracted =
              sessW.extracted)) :=
  ⟨by decide, C9_review_store extractW sessW "new.pdf".toList (by decide)⟩

/-- C10: splitting any review text on newlines yields at least one line
(the empty string splits to one empty line), so every fill with a valid
"Description" column writes at least row 2; when the user has cleared
the text area, row 2's Description cell is set to the empty string. -/
theorem C10_at_least_one_row (s : Sheet) (dc : Nat)
    (h : colIndex s headerText = some dc) (txt : List Char) :
    1 ≤ (splitNl txt).length ∧
      fillTemplate s (splitNl txt) =
        Except.ok (fillRows dc (colIndex s header2Text) 2 (splitNl txt) s) ∧
      (fillRows dc (colIndex s header2Text) 2 (splitNl txt) s).cells 2 dc =
        some ((splitNl txt).getD 0 []) ∧
      (txt = [] →
        (fillRows dc (colIndex s header2Text) 2 (splitNl txt) s).cells 2 dc =
          some []) := by
  have hlen : 1 ≤ (splitNl txt).length := splitSep_length_pos '\n' txt
  have hne : ∀ c2, colIndex s header2Text = some c2 → c2 ≠ dc := by
    intro c2 hc2
    exact colIndex_desc2_ne s dc c2 h hc2
  have hcell := (fillRows_desc_written dc (colIndex s header2Text) hne
    (splitNl txt) 2 s 0 (by omega)).1
  refine ⟨hlen, ?_, ?_, ?_⟩
  · unfold fillTemplate
    rw [h]
  · simpa using hcell
  · intro ht
    subst ht
    have hsplit : splitNl ([] : List Char) = [[]] := rfl
    rw [hsplit] at hcell ⊢
    simpa using hcell

theorem C10_witness :
    colIndex tpl3 headerText = some 2 ∧
      (1 ≤ (splitNl []).length ∧
        fillTemplate tpl3 (splitNl []) =
          Except.ok (fillRows 2 (colIndex tpl3 header2Text) 2 (splitNl []) tpl3) ∧
        (fillRows 2 (colIndex tpl3 header2Text) 2 (splitNl []) tpl3).cells 2 2 =
          some ((splitNl []).getD 0 []) ∧
        (([] : List Char) = [] →
          (fillRows 2 (colIndex tpl3 header2Text) 2 (splitNl []) tpl3).cells 2 2 =
            some [])) :=
  ⟨by decide, C10_at_least_one_row tpl3 2 (by decide) []⟩
